import Mathlib

/-!
Shallow embedding of the cocktail-calculator repository
(`src/Cocktail.py`, `src/DataStructure.py`, `src/main.py`) and proofs
about its specification claims.

Conventions of the embedding:
* Python strings are Lean `String`s; `str.split()` is modelled by
  `pySplit`; the regex `\b[A-Z]{2,}\b` is modelled by splitting the text
  into maximal runs of word characters and keeping the all-uppercase runs
  of length at least 2.
* Python `float` edge weights are modelled by exact rationals `ℚ`.
* A Python dict built by iterated assignment is modelled by an
  association list updated by `dictInsert` (later assignments overwrite).
* Raised exceptions that escape a function are modelled by `Except`
  error values; an exception caught inside the function never shows up
  in its result type.
-/

namespace CocktailCalc

/-- Decidable equality of `Except` results, used to state concrete
evaluations of the fallible operations. -/
instance {ε α : Type} [DecidableEq ε] [DecidableEq α] : DecidableEq (Except ε α) := fun x y =>
  match x, y with
  | Except.ok a, Except.ok b =>
    if h : a = b then isTrue (by rw [h]) else isFalse (by simp [h])
  | Except.error a, Except.error b =>
    if h : a = b then isTrue (by rw [h]) else isFalse (by simp [h])
  | Except.ok _, Except.error _ => isFalse (by simp)
  | Except.error _, Except.ok _ => isFalse (by simp)

/-- Accumulator-passing splitter: maximal runs of characters satisfying
`p`, the current (reversed) run carried in `acc`. -/
def runsAux (p : Char → Bool) : List Char → List Char → List (List Char)
  | [], acc => if acc.isEmpty then [] else [acc.reverse]
  | c :: rest, acc =>
    if p c then
      runsAux p rest (c :: acc)
    else if acc.isEmpty then
      runsAux p rest []
    else
      acc.reverse :: runsAux p rest []

/-- The maximal runs of characters satisfying `p` in a list, in order. -/
def runs (p : Char → Bool) (l : List Char) : List (List Char) :=
  runsAux p l []

/-- Model of Python `str.split()`: the maximal whitespace-free runs of the
string, in order. -/
def pySplit (s : String) : List String :=
  (runs (fun c => ¬ c.isWhitespace) s.toList).map (fun t => String.mk t)

/-! ### `src/Cocktail.py`: the `cocktail_ingredients` class -/

/-- The state of a `cocktail_ingredients` object after `__init__`
(`src/Cocktail.py`).  `amount = none` models the attribute never having
been assigned (the `try` block failed before the first assignment);
`unit = none` models the Python value `None`. -/
structure cocktail_ingredients where
  ingredient : String
  amount : Option String
  unit : Option String
deriving DecidableEq

/-- Embedding of `cocktail_ingredients.__init__` from `src/Cocktail.py`:
`self.amount = amount.split()[0]` and `self.unit = amount.split()[1]`
inside a bare `try`; on any failure the `except` clause re-assigns the
ingredient name and sets `unit = None`.  With zero tokens the first
indexing raises, so `amount` is never assigned; with one token `amount`
is assigned before the second indexing raises. -/
def cocktail_ingredients.make (amount ingredient : String) : cocktail_ingredients :=
  match pySplit amount with
  | [] => { ingredient := ingredient, amount := none, unit := none }
  | [a] => { ingredient := ingredient, amount := some a, unit := none }
  | a :: b :: _ => { ingredient := ingredient, amount := some a, unit := some b }

/-! ### `src/DataStructure.py`: technique extraction -/

/-- The fixed technique vocabulary `cocktail_techniques`
(`src/DataStructure.py`, lines 9–20). -/
def cocktail_techniques : List String :=
  ["SHAKE", "STIR", "MUDDLE", "STRAIN", "FLOAT", "LAYER", "BUILD", "ROLL", "BLEND", "SWIZZLE"]

/-- A regex word character (`\w`), restricted to ASCII. -/
def isWordChar (c : Char) : Bool :=
  c.isAlphanum || c == '_'

/-- The maximal runs of word characters of a character list, in order. -/
def wordTokens (l : List Char) : List (List Char) :=
  runs isWordChar l

/-- A token matched by `[A-Z]{2,}` between word boundaries: an entire
word-character run that is all uppercase and has length at least 2. -/
def isUpperRun (t : List Char) : Bool :=
  decide (2 ≤ t.length) && t.all Char.isUpper

/-- Model of `re.findall(r'\b[A-Z]{2,}\b', s)`: the standalone
all-uppercase tokens of `s` of length at least 2, in order. -/
def findall_upper (s : String) : List String :=
  ((wordTokens s.toList).filter isUpperRun).map (fun t => String.mk t)

/-- The vocabulary words found in a recipe text: the deduplicated matches
of the uppercase-token scan kept when they belong to
`cocktail_techniques` (the set comprehension of `Cocktail.__init__`,
`src/DataStructure.py` line 72, in a deterministic order). -/
def matchedTechniques (recipe : String) : List String :=
  (findall_upper recipe).dedup.filter (fun t => t ∈ cocktail_techniques)

/-- Embedding of `self.techniques = [...] or ["BUILD"]` (`src/DataStructure.py`
line 72): the matched vocabulary words, or `["BUILD"]` when none match. -/
def techniquesOf (recipe : String) : List String :=
  let found := matchedTechniques recipe
  if found = [] then ["BUILD"] else found

/-! ### `src/DataStructure.py`: the `Cocktail` class -/

/-- The state of a `Cocktail` object (`src/DataStructure.py`).
`ingredients` is the raw list of `(amount, ingredient_name)` pairs;
`techniques` is the (deduplicated) technique list computed by
`__init__`. -/
structure Cocktail where
  name : String
  glass : String
  garnish : String
  recipe : String
  ingredients : List (String × String)
  techniques : List String
deriving DecidableEq

/-- Embedding of `Cocktail.__init__` (`src/DataStructure.py`, lines 50–72).  A
non-string `garnish` (e.g. a NaN from the loader) is modelled by
`none` and replaced by the sentinel `"None"`. -/
def Cocktail.make (title glass : String) (garnish : Option String) (recipe : String)
    (ingredients : List (String × String)) : Cocktail :=
  { name := title
    glass := glass
    garnish := garnish.getD "None"
    recipe := recipe
    ingredients := ingredients
    techniques := techniquesOf recipe }

/-- The set of ingredient names of a cocktail:
`set(i[1] for i in self.ingredients)`. -/
def ingredientNameSet (c : Cocktail) : Finset String :=
  (c.ingredients.map Prod.snd).toFinset

/-- Embedding of `Cocktail.get_similarity` (`src/DataStructure.py`, lines 74–94):
3 points per shared ingredient name plus 1 point per shared technique. -/
def get_similarity (a b : Cocktail) : ℕ :=
  (ingredientNameSet a ∩ ingredientNameSet b).card * 3
    + (a.techniques.toFinset ∩ b.techniques.toFinset).card

/-! ### `src/DataStructure.py`: the `CocktailGraph` class

The `networkx.Graph` object is modelled by `NxGraph`: an ordered node
list carrying the `data` attribute (the `Cocktail` back-reference) and
an edge list of `(u, v, weight)` triples, at most one per unordered
pair of endpoints (a networkx graph holds no parallel edges; re-adding
an edge overwrites its weight). -/

/-- Whether `(a, b)` and `(u, v)` are the same unordered pair of
endpoints. -/
def sameEdge (u v a b : String) : Bool :=
  (u == a && v == b) || (u == b && v == a)

/-- Model of a `networkx.Graph` as used by `CocktailGraph`. -/
structure NxGraph where
  nodes : List (String × Cocktail)
  edges : List (String × String × ℚ)
deriving DecidableEq

/-- The empty graph `nx.Graph()`. -/
def NxGraph.empty : NxGraph :=
  { nodes := [], edges := [] }

/-- Membership test `name in graph.nodes`. -/
def NxGraph.hasNode (g : NxGraph) (name : String) : Bool :=
  g.nodes.any (fun p => p.1 == name)

/-- Lookup `graph.nodes[name]['data']`: the `data` attribute of a node. -/
def NxGraph.nodeData (g : NxGraph) (name : String) : Option Cocktail :=
  (g.nodes.find? (fun p => p.1 == name)).map Prod.snd

/-- Model of `graph.add_node(name, data=c)`: inserts the node, or overwrites the
`data` attribute when the node already exists. -/
def NxGraph.addNode (g : NxGraph) (name : String) (c : Cocktail) : NxGraph :=
  if g.hasNode name then
    { g with nodes := g.nodes.map (fun p => if p.1 == name then (name, c) else p) }
  else
    { g with nodes := g.nodes ++ [(name, c)] }

/-- Model of `graph.add_edge(u, v, weight=w)`: replaces any existing edge on the
same unordered pair, then appends the new edge.  In `build_graph` both
endpoints are already nodes, so node insertion is not modelled here. -/
def NxGraph.addEdge (g : NxGraph) (u v : String) (w : ℚ) : NxGraph :=
  { g with
    edges := g.edges.filter (fun e => ¬ sameEdge e.1 e.2.1 u v) ++ [(u, v, w)] }

/-- The weight attached to the edge `{a, b}`, if that edge exists. -/
def NxGraph.getEdgeWeight (g : NxGraph) (a b : String) : Option ℚ :=
  (g.edges.find? (fun e => sameEdge e.1 e.2.1 a b)).map (fun e => e.2.2)

/-- Whether the graph has an edge on the unordered pair `{a, b}`. -/
def NxGraph.hasEdge (g : NxGraph) (a b : String) : Bool :=
  g.edges.any (fun e => sameEdge e.1 e.2.1 a b)

/-- The threshold `self.threshold = 7` (`src/DataStructure.py`, line 150). -/
def threshold : ℕ := 7

/-- One iteration of the inner loop body of `build_graph`
(`src/DataStructure.py`, lines 186–188): add the edge only if the
similarity reaches the threshold, with weight `1 / similarity`. -/
def maybeAddEdge (c1 c2 : Cocktail) (g : NxGraph) : NxGraph :=
  if threshold ≤ get_similarity c1 c2 then
    g.addEdge c1.name c2.name (1 / (get_similarity c1 c2 : ℚ))
  else
    g

/-- The double loop of `build_graph` over pairs `i < j` in input order:
the head cocktail is paired with every later one, then the tail is
processed recursively. -/
def addAllPairs : NxGraph → List Cocktail → NxGraph
  | g, [] => g
  | g, c :: rest => addAllPairs (rest.foldl (fun h c2 => maybeAddEdge c c2 h) g) rest

/-- Embedding of `CocktailGraph.build_graph` (`src/DataStructure.py`, lines 176–188):
one node per cocktail (keyed by name, holding the cocktail as `data`),
then the threshold-gated pairwise edges. -/
def build_graph (cs : List Cocktail) : NxGraph :=
  addAllPairs (cs.foldl (fun g c => g.addNode c.name c) NxGraph.empty) cs

/-- Embedding of `CocktailGraph.cocktail_exists` (`src/DataStructure.py`, line 290). -/
def cocktail_exists (g : NxGraph) (name : String) : Bool :=
  g.hasNode name

/-! ### Path finder -/

/-- The networkx exceptions that `nx.shortest_path` can raise here. -/
inductive NxError where
  | nodeNotFound
  | noPath
deriving DecidableEq

/-- The neighbours of `u` along the edge list. -/
def NxGraph.neighbors (g : NxGraph) (u : String) : List String :=
  g.edges.filterMap (fun e =>
    if e.1 == u then some e.2.1
    else if e.2.1 == u then some e.1
    else none)

/-- Fuel-bounded depth-first search for a path from `u` to `t` avoiding
`visited`; used to model connectivity inside the `nx.shortest_path`
call. -/
def dfsPath (g : NxGraph) : ℕ → List String → String → String → Option (List String)
  | 0, _, _, _ => none
  | fuel + 1, visited, u, t =>
    if u = t then some [u]
    else
      ((g.neighbors u).filter (fun v => ¬ visited.contains v)).foldl
        (fun acc v =>
          match acc with
          | some p => some p
          | none => (dfsPath g fuel (u :: visited) v t).map (fun p => u :: p))
        none

/-- Whether `t` is reachable from `s` in the graph (with `s` reachable
from itself, as in networkx, where `shortest_path(G, x, x) = [x]`). -/
def NxGraph.connected (g : NxGraph) (s t : String) : Bool :=
  (dfsPath g (g.nodes.length + 1) [] s t).isSome

/-- Model of the library call
`nx.shortest_path(graph, source, target, weight='weight')`: raises
`NodeNotFound` when either endpoint is not a node, raises
`NetworkXNoPath` when both are nodes but no path connects them, and
otherwise returns a path from source to target (here the one found by
the depth-first search; no claim depends on which path is returned). -/
def nx_shortest_path (g : NxGraph) (s t : String) : Except NxError (List String) :=
  if g.hasNode s && g.hasNode t then
    match dfsPath g (g.nodes.length + 1) [] s t with
    | some p => Except.ok p
    | none => Except.error NxError.noPath
  else
    Except.error NxError.nodeNotFound

/-- Embedding of `CocktailGraph.find_shortest_path` (`src/DataStructure.py`,
lines 191–211): the `try` block catches only `nx.NetworkXNoPath`
(returning `None`, modelled `Except.ok none`); any other exception
propagates (modelled `Except.error`). -/
def find_shortest_path (g : NxGraph) (c1 c2 : String) : Except NxError (Option (List String)) :=
  match nx_shortest_path g c1 c2 with
  | Except.ok p => Except.ok (some p)
  | Except.error NxError.noPath => Except.ok none
  | Except.error e => Except.error e

/-! ### Difference report -/

/-- One Python dict assignment `d[k] = v`: overwrite the value at an
existing key, else append the new binding. -/
def dictInsert (d : List (String × String)) (k v : String) : List (String × String) :=
  if d.any (fun p => p.1 == k) then
    d.map (fun p => if p.1 == k then (k, v) else p)
  else
    d ++ [(k, v)]

/-- The dict comprehension `{i[1]: i[0] for i in ingredients}`
(`src/DataStructure.py`, line 230): ingredient name to amount, later
occurrences overwriting earlier ones. -/
def dictOfIngredients (l : List (String × String)) : List (String × String) :=
  l.foldl (fun d p => dictInsert d p.2 p.1) []

/-- Lookup `d.get(k)` on the association-list dict model. -/
def dictGet (d : List (String × String)) (k : String) : Option String :=
  (d.find? (fun p => p.1 == k)).map Prod.snd

/-- The keys of the dict model, in insertion order. -/
def dictKeys (d : List (String × String)) : List String :=
  d.map Prod.fst

/-- Ascending insertion of a string into a sorted list. -/
def insertAsc (x : String) : List String → List String
  | [] => [x]
  | y :: rest => if x ≤ y then x :: y :: rest else y :: insertAsc x rest

/-- Python `sorted` over the elements of a (deduplicated) list. -/
def sortAsc : List String → List String
  | [] => []
  | x :: rest => insertAsc x (sortAsc rest)

/-- The structured content of the printed comparison table: the header
row and the table rows handed to `tabulate`. -/
structure Report where
  headers : List String
  table : List (List String)
deriving DecidableEq

/-- An ingredient row of the table: the ingredient name followed by, for
each compared cocktail, `ingredients.get(ingredient, "X")`. -/
def ingredientRow (dicts : List (List (String × String))) (ing : String) : List String :=
  ing :: dicts.map (fun d => (dictGet d ing).getD "X")

/-- A technique row of the table: the technique name followed by, for
each compared cocktail, the technique itself when present, else `"X"`. -/
def techniqueRow (techLists : List (List String)) (tech : String) : List String :=
  tech :: techLists.map (fun ts => if tech ∈ ts then tech else "X")

/-- The table built by `display_cocktail_difference` once every name has
been resolved (`src/DataStructure.py`, lines 223–262): the union of the
ingredient names (sorted) and of the techniques (sorted), rendered as
two sections with one column per compared cocktail. -/
def makeReport (names : List String) (cs : List Cocktail) : Report :=
  let dicts := cs.map (fun c => dictOfIngredients c.ingredients)
  let techs := cs.map Cocktail.techniques
  let all_ingredients := sortAsc ((dicts.map dictKeys).flatten.dedup)
  let all_techniques := sortAsc (techs.flatten.dedup)
  { headers := "Element" :: names
    table :=
      ("--- INGREDIENTS ---" :: names.map (fun _ => ""))
        :: all_ingredients.map (ingredientRow dicts)
        ++ ("--- TECHNIQUES ---" :: names.map (fun _ => ""))
        :: all_techniques.map (techniqueRow techs) }

/-- The name-resolution loop of `display_cocktail_difference`
(`src/DataStructure.py`, lines 215–221): gather the `data` of each
name in order, stopping with an error at the first absent name. -/
def resolveAll (g : NxGraph) : List String → Except String (List Cocktail)
  | [] => Except.ok []
  | n :: rest =>
    match g.nodeData n with
    | some c => (resolveAll g rest).map (fun cs => c :: cs)
    | none => Except.error n

/-- Embedding of `CocktailGraph.display_cocktail_difference` (`src/DataStructure.py`,
lines 213–262; the identical code is in `src/main.py`, lines 49–112):
an error naming the first absent cocktail (and no table), or the full
two-section table. -/
def display_cocktail_difference (g : NxGraph) (names : List String) :
    Except String Report :=
  (resolveAll g names).map (makeReport names)

/-! ### Fuzzy matcher -/

/-- Descending lexicographic comparison on `(ratio, name)` pairs, the
order in which `heapq.nlargest` ranks the scored candidates inside
`difflib.get_close_matches`. -/
def pairGe (p q : ℚ × String) : Bool :=
  decide (q.1 < p.1) || (decide (p.1 = q.1) && decide (q.2 ≤ p.2))

/-- Insertion into a descending-sorted list. -/
def insertDesc (p : ℚ × String) : List (ℚ × String) → List (ℚ × String)
  | [] => [p]
  | q :: rest => if pairGe p q then p :: q :: rest else q :: insertDesc p rest

/-- Descending sort of `(ratio, name)` pairs. -/
def sortDesc : List (ℚ × String) → List (ℚ × String)
  | [] => []
  | p :: rest => insertDesc p (sortDesc rest)

/-- Model of `difflib.get_close_matches(word, possibilities, n, cutoff)`
over an arbitrary similarity `ratio` (the `SequenceMatcher` ratio of the
library is kept abstract; every claimed property holds for any ratio
function).  Candidates scoring at least `cutoff` are ranked descending
and the best `n` are returned.  The chained `real_quick_ratio` /
`quick_ratio` upper-bound tests of the library are equivalent to the
single `ratio` test kept here. -/
def get_close_matches (ratio : String → String → ℚ) (word : String)
    (possibilities : List String) (n : ℕ) (cutoff : ℚ) : List String :=
  let result := (possibilities.filter (fun x => decide (cutoff ≤ ratio x word))).map
    (fun x => (ratio x word, x))
  ((sortDesc result).take n).map Prod.snd

/-- Embedding of `CocktailGraph.fuzzy_search_cocktail` (`src/DataStructure.py`,
lines 292–308): `difflib.get_close_matches(name, list(graph.nodes),
n=5, cutoff=0.6)`. -/
def fuzzy_search_cocktail (ratio : String → String → ℚ) (g : NxGraph)
    (cocktail_name : String) : List String :=
  get_close_matches ratio cocktail_name (g.nodes.map Prod.fst) 5 (3 / 5)

/-! ### Concrete entities and derived definitions used by the theorems -/

/-- A cocktail whose ingredient list repeats the name `"gin"`. -/
def dupGin : Cocktail :=
  Cocktail.make "Dup" "glass" none "stir it" [("1 oz", "gin"), ("2 oz", "gin")]

/-- A cocktail used to build concrete graphs. -/
def margarita : Cocktail :=
  Cocktail.make "Margarita" "coupe" none "SHAKE with ice" [("5 cl", "tequila")]

/-- An isolated cocktail sharing nothing with `soloB`. -/
def soloA : Cocktail := Cocktail.make "A" "glass" none "" [("1 cl", "x")]

/-- An isolated cocktail sharing nothing with `soloA`. -/
def soloB : Cocktail := Cocktail.make "B" "glass" none "SHAKE" [("1 cl", "y")]

/-- The amount attached to the last occurrence of an ingredient name in
an `(amount, name)` list. -/
def lastAmount (l : List (String × String)) (ing : String) : Option String :=
  ((l.filter (fun p => p.2 == ing)).getLast?).map Prod.fst

/-- The first pair `(cᵢ, cⱼ)` with `i < j` over input order whose names
form the unordered pair `{a, b}`; with pairwise-distinct names this is
the only pair the double loop of `build_graph` visits for `{a, b}`. -/
def findPair (cs : List Cocktail) (a b : String) : Option (Cocktail × Cocktail) :=
  match cs with
  | [] => none
  | c :: rest =>
    if c.name = a then (rest.find? (fun d => d.name == b)).map (fun d => (c, d))
    else if c.name = b then (rest.find? (fun d => d.name == a)).map (fun d => (c, d))
    else findPair rest a b

/-- A cocktail named `X` with three ingredients. -/
def nameX1 : Cocktail :=
  Cocktail.make "X" "glass" none "" [("1", "a"), ("1", "b"), ("1", "c")]

/-- A cocktail named `Y` sharing all three ingredients with `nameX1`. -/
def nameY : Cocktail :=
  Cocktail.make "Y" "glass" none "" [("1", "a"), ("1", "b"), ("1", "c")]

/-- A second cocktail named `X`, sharing nothing with `nameY`. -/
def nameX2 : Cocktail :=
  Cocktail.make "X" "glass" none "SHAKE it" [("1", "d")]

/-- The simple-graph invariants of an edge list: no self-loop, no two
edges on the same unordered pair, all weights positive. -/
def SimpleEdges (g : NxGraph) : Prop :=
  (∀ e ∈ g.edges, ¬ e.1 = e.2.1) ∧
  g.edges.Pairwise (fun e f => sameEdge e.1 e.2.1 f.1 f.2.1 = false) ∧
  (∀ e ∈ g.edges, 0 < e.2.2)

/-! ## Helper lemmas -/

/-- The similarity score only looks at the ingredient-name sets and
technique sets, which intersect symmetrically. -/
theorem get_similarity_comm (a b : Cocktail) : get_similarity a b = get_similarity b a := by
  unfold get_similarity
  rw [Finset.inter_comm, Finset.inter_comm a.techniques.toFinset]

/-- The techniques of a constructed cocktail are `techniquesOf` its
recipe text. -/
theorem make_techniques (title glass : String) (garnish : Option String) (recipe : String)
    (ings : List (String × String)) :
    (Cocktail.make title glass garnish recipe ings).techniques = techniquesOf recipe := rfl

/-- Unfolding of `techniquesOf` through its `let`. -/
theorem techniquesOf_eq (recipe : String) :
    techniquesOf recipe =
      if matchedTechniques recipe = [] then ["BUILD"] else matchedTechniques recipe := rfl

/-! ## Claim C4 -/

/-- Claim C4 (amended): when the whitespace split of the raw amount
string yields fewer than two tokens, the constructed
`cocktail_ingredients` keeps the ingredient name unchanged, has
`unit = None`, and its `amount` is the first token when there is one and
is left unassigned when there is none; the constructor never raises (it
is total). -/
theorem ingredient_parse_short_amount (amount ingredient : String)
    (h : (pySplit amount).length < 2) :
    (cocktail_ingredients.make amount ingredient).ingredient = ingredient ∧
    (cocktail_ingredients.make amount ingredient).unit = none ∧
    (cocktail_ingredients.make amount ingredient).amount = (pySplit amount).head? := by
  rcases hs : pySplit amount with _ | ⟨a, _ | ⟨b, rest⟩⟩
  · simp [cocktail_ingredients.make, hs]
  · simp [cocktail_ingredients.make, hs]
  · rw [hs] at h
    simp only [List.length_cons] at h
    omega

/-- Claim C4, counterexample to the original statement: the raw amount
`"5"` splits into a single token, yet the parsed `amount` is that token,
not `None`. -/
theorem ingredient_parse_single_token_counterexample :
    (pySplit "5").length < 2 ∧ ¬ (cocktail_ingredients.make "5" "gin").amount = none := by
  decide

/-- Claim C4, witness of the amended statement at the empty amount
string. -/
theorem ingredient_parse_short_amount_witness :
    (pySplit "").length < 2 ∧
      ((cocktail_ingredients.make "" "gin").ingredient = "gin" ∧
        (cocktail_ingredients.make "" "gin").unit = none ∧
        (cocktail_ingredients.make "" "gin").amount = (pySplit "").head?) :=
  ⟨by decide, ingredient_parse_short_amount "" "gin" (by decide)⟩

/-! ## Claim C6 -/

/-- Claim C6: the similarity scorer is symmetric,
`score(A,B) = score(B,A)` for all Recipe Entities `A`, `B`. -/
theorem get_similarity_symmetric (a b : Cocktail) :
    get_similarity a b = get_similarity b a :=
  get_similarity_comm a b

/-! ## Claim C7 -/

/-- Claim C7 (amended): for every Recipe Entity `A`,
`score(A,A) = 3 * (number of distinct ingredient names of A)
+ |A.techniques|`; the original claim's ingredient-list length
overcounts when the same ingredient name occurs more than once. -/
theorem get_similarity_self_amended (a : Cocktail) :
    get_similarity a a = 3 * (ingredientNameSet a).card + a.techniques.toFinset.card := by
  unfold get_similarity
  rw [Finset.inter_self, Finset.inter_self, Nat.mul_comm]



/-- Claim C7, counterexample to the original statement: with a repeated
ingredient name, `score(A,A)` is 4, not
`3 * |A.ingredients| + |A.techniques| = 7`. -/
theorem get_similarity_self_counterexample :
    ¬ get_similarity dupGin dupGin
        = 3 * dupGin.ingredients.length + dupGin.techniques.toFinset.card := by
  decide

/-! ## Claim C3 -/

/-- Claim C3: the constructed entity's techniques are a subset of the
fixed 10-word vocabulary, are exactly the vocabulary words occurring as
standalone uppercase tokens of the recipe text when any occurs, are
never empty, and fall back to `{BUILD}` when no vocabulary word
matches. -/
theorem techniques_invariant (title glass recipe : String) (garnish : Option String)
    (ings : List (String × String)) :
    (Cocktail.make title glass garnish recipe ings).techniques.toFinset ⊆
        cocktail_techniques.toFinset ∧
    (Cocktail.make title glass garnish recipe ings).techniques ≠ [] ∧
    (matchedTechniques recipe ≠ [] →
      (Cocktail.make title glass garnish recipe ings).techniques = matchedTechniques recipe) ∧
    (matchedTechniques recipe = [] →
      (Cocktail.make title glass garnish recipe ings).techniques = ["BUILD"]) := by
  rw [make_techniques, techniquesOf_eq]
  by_cases hm : matchedTechniques recipe = []
  · rw [if_pos hm]
    refine ⟨?_, by simp, fun h => absurd hm h, fun _ => rfl⟩
    intro x hx
    simp only [List.toFinset_cons, List.toFinset_nil, insert_emptyc_eq,
      Finset.mem_singleton] at hx
    rw [hx, List.mem_toFinset]
    simp [cocktail_techniques]
  · rw [if_neg hm]
    refine ⟨?_, hm, fun _ => rfl, fun h => absurd h hm⟩
    intro x hx
    rw [List.mem_toFinset] at hx
    rw [matchedTechniques, List.mem_filter] at hx
    rw [List.mem_toFinset]
    exact of_decide_eq_true hx.2

/-- Claim C3, witness at a recipe containing the vocabulary word
`SHAKE`. -/
theorem techniques_invariant_witness :
    matchedTechniques "SHAKE it hard" ≠ [] ∧
      (Cocktail.make "W" "glass" none "SHAKE it hard" []).techniques
        = matchedTechniques "SHAKE it hard" :=
  ⟨by decide,
    (techniques_invariant "W" "glass" "SHAKE it hard" none []).2.2.1 (by decide)⟩

/-! ## Claim C1 -/



/-- Claim C1 (amended): the path finder returns `NotFound` (`None`, not
an exception) when both names are nodes of the graph but are not
connected; when either name is absent the underlying library raises
`NodeNotFound`, which the wrapper does not catch, so the call fails with
an exception instead of returning `NotFound`. -/
theorem find_shortest_path_notfound_amended (g : NxGraph) (s t : String) :
    ((g.hasNode s = false ∨ g.hasNode t = false) →
      find_shortest_path g s t = Except.error NxError.nodeNotFound) ∧
    (g.hasNode s = true → g.hasNode t = true → g.connected s t = false →
      find_shortest_path g s t = Except.ok none) := by
  constructor
  · intro h
    unfold find_shortest_path nx_shortest_path
    rcases h with h | h <;> rw [h] <;> simp
  · intro hs ht hc
    unfold find_shortest_path nx_shortest_path
    rw [hs, ht]
    rw [NxGraph.connected] at hc
    cases hd : dfsPath g (g.nodes.length + 1) [] s t with
    | some p => rw [hd] at hc; simp at hc
    | none => simp [hd]

/-- Claim C1, counterexample to the original statement: on a graph whose
only node is `Margarita`, querying absent names makes the call fail with
the (modelled) uncaught `NodeNotFound` exception rather than return
`NotFound`. -/
theorem find_shortest_path_raises_on_absent_name :
    find_shortest_path (build_graph [margarita]) "A" "Z"
      = Except.error NxError.nodeNotFound := by decide

/-- Claim C1, witness of the amended statement: two existing but
unconnected cocktails give `NotFound` (`None`), not an error. -/
theorem find_shortest_path_notfound_amended_witness :
    find_shortest_path (build_graph [soloA, soloB]) "A" "B" = Except.ok none :=
  (find_shortest_path_notfound_amended (build_graph [soloA, soloB]) "A" "B").2
    (by decide) (by decide) (by decide)

/-! ## Claim C5 -/

/-- A node name exists exactly when its `data` lookup succeeds. -/
theorem cocktail_exists_iff_nodeData (g : NxGraph) (n : String) :
    cocktail_exists g n = true ↔ (g.nodeData n).isSome := by
  rw [cocktail_exists, NxGraph.hasNode, NxGraph.nodeData, List.any_eq_true,
    Option.isSome_map', List.find?_isSome]

/-- When every queried name resolves, the resolution loop succeeds. -/
theorem resolveAll_ok_of_all (g : NxGraph) (names : List String)
    (h : ∀ n ∈ names, (g.nodeData n).isSome) :
    ∃ cs, resolveAll g names = Except.ok cs := by
  induction names with
  | nil => exact ⟨[], rfl⟩
  | cons n rest ih =>
    obtain ⟨c, hc⟩ := Option.isSome_iff_exists.mp (h n (List.mem_cons_self n rest))
    obtain ⟨cs, hcs⟩ := ih (fun m hm => h m (List.mem_cons_of_mem n hm))
    exact ⟨c :: cs, by rw [resolveAll, hc, hcs]; rfl⟩

/-- A resolution error names a queried name that is absent from the
graph. -/
theorem resolveAll_error (g : NxGraph) (names : List String) (m : String)
    (h : resolveAll g names = Except.error m) :
    m ∈ names ∧ g.nodeData m = none := by
  induction names with
  | nil => simp [resolveAll] at h
  | cons n rest ih =>
    rw [resolveAll] at h
    cases hn : g.nodeData n with
    | some c =>
      rw [hn] at h
      cases hr : resolveAll g rest with
      | ok cs => rw [hr] at h; simp [Except.map] at h
      | error e =>
        rw [hr] at h
        simp only [Except.map] at h
        cases h
        obtain ⟨h1, h2⟩ := ih hr
        exact ⟨List.mem_cons_of_mem n h1, h2⟩
    | none =>
      rw [hn] at h
      have hnm : n = m := by injection h
      exact hnm ▸ ⟨List.mem_cons_self n rest, hn⟩

/-- Claim C5: the comparison is atomic; if any queried name is absent
the call fails with an error naming an absent entry (and produces no
report), and if all names are present it produces the full two-section
report. -/
theorem display_difference_atomic (g : NxGraph) (names : List String) :
    ((∀ n ∈ names, cocktail_exists g n = true) →
      ∃ cs, resolveAll g names = Except.ok cs ∧
        display_cocktail_difference g names = Except.ok (makeReport names cs)) ∧
    (∀ m, display_cocktail_difference g names = Except.error m →
      m ∈ names ∧ cocktail_exists g m = false) := by
  constructor
  · intro h
    obtain ⟨cs, hcs⟩ := resolveAll_ok_of_all g names
      (fun n hn => (cocktail_exists_iff_nodeData g n).mp (h n hn))
    refine ⟨cs, hcs, ?_⟩
    rw [display_cocktail_difference, hcs]
    rfl
  · intro m hm
    rw [display_cocktail_difference] at hm
    cases hr : resolveAll g names with
    | ok cs => rw [hr] at hm; simp [Except.map] at hm
    | error e =>
      rw [hr] at hm
      simp only [Except.map] at hm
      cases hm
      obtain ⟨h1, h2⟩ := resolveAll_error g names m hr
      refine ⟨h1, ?_⟩
      rw [← Bool.not_eq_true, cocktail_exists_iff_nodeData, h2]
      simp

/-- Claim C5, witness: with all names present the full report is
produced. -/
theorem display_difference_atomic_witness :
    ∃ cs, resolveAll (build_graph [margarita]) ["Margarita"] = Except.ok cs ∧
      display_cocktail_difference (build_graph [margarita]) ["Margarita"]
        = Except.ok (makeReport ["Margarita"] cs) :=
  (display_difference_atomic (build_graph [margarita]) ["Margarita"]).1 (by decide)

/-! ## Claim C10: dict-model lemmas -/



/-- Overwriting an existing key makes it the found binding. -/
theorem find?_map_overwrite (d : List (String × String)) (k v : String)
    (ha : d.any (fun p => p.1 == k) = true) :
    (d.map (fun p => if p.1 == k then (k, v) else p)).find? (fun p => p.1 == k)
      = some (k, v) := by
  induction d with
  | nil => simp at ha
  | cons q rest ih =>
    by_cases hq : q.1 = k
    · rw [List.map_cons, if_pos (by simp [hq]), List.find?_cons_of_pos _ (by simp)]
    · have hq' : (q.1 == k) = false := beq_false_of_ne hq
      rw [List.any_cons, hq', Bool.false_or] at ha
      rw [List.map_cons, if_neg (by simp [hq]), List.find?_cons_of_neg _ (by simp [hq])]
      exact ih ha

/-- Overwriting key `k` does not disturb lookups of other keys. -/
theorem find?_map_preserve (d : List (String × String)) (k v k' : String)
    (h : ¬ k' = k) :
    (d.map (fun p => if p.1 == k then (k, v) else p)).find? (fun p => p.1 == k')
      = d.find? (fun p => p.1 == k') := by
  induction d with
  | nil => rfl
  | cons q rest ih =>
    by_cases hq : q.1 = k
    · rw [List.map_cons, if_pos (by simp [hq]),
        List.find?_cons_of_neg _ (by simp [Ne.symm h]),
        List.find?_cons_of_neg _ (by simp [hq, Ne.symm h])]
      exact ih
    · rw [List.map_cons, if_neg (by simp [hq]), List.find?_cons, List.find?_cons]
      cases hq' : (q.1 == k') with
      | true => rfl
      | false => exact ih

/-- Lookup after one dict assignment: the assigned key maps to the new
value, all other keys are untouched. -/
theorem dictGet_dictInsert (d : List (String × String)) (k v k' : String) :
    dictGet (dictInsert d k v) k' = if k' = k then some v else dictGet d k' := by
  by_cases h : k' = k
  · subst h
    rw [if_pos rfl, dictInsert]
    by_cases ha : d.any (fun p => p.1 == k') = true
    · rw [if_pos ha, dictGet, find?_map_overwrite d k' v ha]
      rfl
    · rw [if_neg ha, dictGet, List.find?_append]
      have hnone : d.find? (fun p => p.1 == k') = none := by
        rw [List.find?_eq_none]
        intro p hp hpk
        exact ha (List.any_eq_true.mpr ⟨p, hp, hpk⟩)
      rw [hnone]
      simp [List.find?]
  · rw [if_neg h, dictInsert]
    by_cases ha : d.any (fun p => p.1 == k) = true
    · rw [if_pos ha, dictGet, find?_map_preserve d k v k' h, dictGet]
    · rw [if_neg ha, dictGet, List.find?_append]
      have hlast : [(k, v)].find? (fun p => p.1 == k') = none := by
        rw [List.find?_cons_of_neg _ (by simp [Ne.symm h])]
        rfl
      rw [hlast, Option.or_none, dictGet]

/-- Peeling one pair off the last-occurrence lookup. -/
theorem lastAmount_cons (p : String × String) (rest : List (String × String)) (k : String) :
    lastAmount (p :: rest) k =
      if p.2 = k then
        match lastAmount rest k with
        | some v => some v
        | none => some p.1
      else lastAmount rest k := by
  by_cases hp : p.2 = k
  · rw [if_pos hp, lastAmount, List.filter_cons, if_pos (by simp [hp]), lastAmount]
    cases hf : rest.filter (fun q => q.2 == k) with
    | nil => simp
    | cons q qs =>
      rw [List.getLast?_cons_cons]
      cases hg : (q :: qs).getLast? with
      | none => rw [List.getLast?_eq_none_iff] at hg; cases hg
      | some r => simp
  · rw [if_neg hp, lastAmount, List.filter_cons, if_neg (by simp [hp]), lastAmount]

/-- Folding dict assignments over a pair list: the final lookup returns
the amount of the last occurrence of the key, falling back to the
initial dict. -/
theorem dictGet_foldl (l : List (String × String)) (d : List (String × String)) (k : String) :
    dictGet (l.foldl (fun d0 p => dictInsert d0 p.2 p.1) d) k
      = match lastAmount l k with
        | some v => some v
        | none => dictGet d k := by
  induction l generalizing d with
  | nil => rfl
  | cons p rest ih =>
    rw [List.foldl_cons, ih (dictInsert d p.2 p.1), lastAmount_cons]
    by_cases hp : p.2 = k
    · rw [if_pos hp]
      cases hl : lastAmount rest k with
      | some v => rfl
      | none =>
        rw [dictGet_dictInsert, if_pos hp.symm]
    · rw [if_neg hp]
      cases hl : lastAmount rest k with
      | some v => rfl
      | none =>
        rw [dictGet_dictInsert, if_neg (fun hk => hp hk.symm)]

/-- The dict comprehension over the ingredient list maps each ingredient
name to the amount of its last occurrence. -/
theorem dictGet_dictOfIngredients (l : List (String × String)) (k : String) :
    dictGet (dictOfIngredients l) k = lastAmount l k := by
  rw [dictOfIngredients, dictGet_foldl]
  cases hl : lastAmount l k with
  | some v => rfl
  | none => rfl

/-- Membership in the keys of a dict after one assignment. -/
theorem mem_dictKeys_dictInsert (d : List (String × String)) (k v x : String) :
    x ∈ dictKeys (dictInsert d k v) ↔ x = k ∨ x ∈ dictKeys d := by
  rw [dictInsert]
  by_cases ha : d.any (fun p => p.1 == k) = true
  · rw [if_pos ha, dictKeys, dictKeys]
    simp only [List.map_map, List.mem_map]
    constructor
    · rintro ⟨p, hp, hx⟩
      by_cases hpk : p.1 = k
      · simp [Function.comp, hpk] at hx
        exact Or.inl hx.symm
      · simp [Function.comp, hpk] at hx
        exact Or.inr ⟨p, hp, hx⟩
    · rintro (hx | ⟨p, hp, hx⟩)
      · obtain ⟨p, hp, hpk⟩ := List.any_eq_true.mp ha
        refine ⟨p, hp, ?_⟩
        simp only [Function.comp]
        rw [if_pos hpk]
        exact hx.symm
      · by_cases hpk : p.1 = k
        · refine ⟨p, hp, ?_⟩
          simp only [Function.comp]
          rw [if_pos (by simp [hpk])]
          rw [← hx, hpk]
        · refine ⟨p, hp, ?_⟩
          simp only [Function.comp]
          rw [if_neg (by simp [hpk])]
          exact hx
  · rw [if_neg ha, dictKeys, List.map_append, dictKeys]
    simp [or_comm]

/-- Membership in the keys of the dict built from a pair list. -/
theorem mem_dictKeys_dictOfIngredients (l : List (String × String)) (x : String) :
    x ∈ dictKeys (dictOfIngredients l) ↔ x ∈ l.map Prod.snd := by
  have main : ∀ (l d : List (String × String)),
      x ∈ dictKeys (l.foldl (fun d0 p => dictInsert d0 p.2 p.1) d)
        ↔ x ∈ l.map Prod.snd ∨ x ∈ dictKeys d := by
    intro l
    induction l with
    | nil => simp
    | cons p rest ih =>
      intro d
      rw [List.foldl_cons, ih (dictInsert d p.2 p.1), mem_dictKeys_dictInsert]
      rw [List.map_cons, List.mem_cons]
      tauto
  rw [dictOfIngredients, main l []]
  simp [dictKeys]

/-- Membership in an ascending insertion. -/
theorem mem_insertAsc (x y : String) (l : List String) :
    x ∈ insertAsc y l ↔ x = y ∨ x ∈ l := by
  induction l with
  | nil => simp [insertAsc]
  | cons z rest ih =>
    rw [insertAsc]
    by_cases h : y ≤ z
    · rw [if_pos h]
      simp
    · rw [if_neg h]
      rw [List.mem_cons, ih, List.mem_cons]
      tauto

/-- Sorting preserves membership. -/
theorem mem_sortAsc (x : String) (l : List String) :
    x ∈ sortAsc l ↔ x ∈ l := by
  induction l with
  | nil => simp [sortAsc]
  | cons y rest ih =>
    rw [sortAsc, mem_insertAsc, ih, List.mem_cons]

/-- A list whose last-occurrence lookup succeeds contains the looked-up
ingredient name. -/
theorem mem_map_snd_of_lastAmount (l : List (String × String)) (ing amt : String)
    (h : lastAmount l ing = some amt) : ing ∈ l.map Prod.snd := by
  rw [lastAmount] at h
  cases hf : l.filter (fun p => p.2 == ing) with
  | nil => rw [hf] at h; simp at h
  | cons p ps =>
    have hp : p ∈ l.filter (fun p => p.2 == ing) := by
      rw [hf]
      exact List.mem_cons_self p ps
    rw [List.mem_filter] at hp
    exact List.mem_map.mpr ⟨p, hp.1, by simpa using hp.2⟩

/-- Claim C10: when a cocktail's ingredient list repeats an ingredient
name, the difference report's column for that cocktail shows the amount
of the last occurrence (the name-to-amount dict overwrites earlier
occurrences), as the report contains the ingredient's row and that row's
entry for the cocktail at position `k` is the last occurrence's
amount. -/
theorem report_shows_last_occurrence (g : NxGraph) (names : List String)
    (cs : List Cocktail) (k : ℕ) (c : Cocktail) (ing amt : String)
    (hres : resolveAll g names = Except.ok cs)
    (hk : cs[k]? = some c)
    (hlast : lastAmount c.ingredients ing = some amt) :
    display_cocktail_difference g names = Except.ok (makeReport names cs) ∧
    ingredientRow (cs.map (fun c0 => dictOfIngredients c0.ingredients)) ing
        ∈ (makeReport names cs).table ∧
    (ingredientRow (cs.map (fun c0 => dictOfIngredients c0.ingredients)) ing)[k + 1]?
        = some amt := by
  obtain ⟨hklt, hkeq⟩ := List.getElem?_eq_some_iff.mp hk
  have hcmem : c ∈ cs := by
    rw [← hkeq]
    exact List.getElem_mem hklt
  refine ⟨?_, ?_, ?_⟩
  · rw [display_cocktail_difference, hres]
    rfl
  · simp only [makeReport]
    apply List.mem_cons_of_mem
    apply List.mem_append_left
    apply List.mem_map.mpr
    refine ⟨ing, ?_, rfl⟩
    rw [mem_sortAsc, List.mem_dedup, List.mem_flatten]
    refine ⟨dictKeys (dictOfIngredients c.ingredients), ?_, ?_⟩
    · exact List.mem_map.mpr ⟨dictOfIngredients c.ingredients,
        List.mem_map.mpr ⟨c, hcmem, rfl⟩, rfl⟩
    · rw [mem_dictKeys_dictOfIngredients]
      exact mem_map_snd_of_lastAmount c.ingredients ing amt hlast
  · rw [ingredientRow, List.getElem?_cons_succ, List.getElem?_map, List.getElem?_map, hk]
    simp only [Option.map_some']
    rw [dictGet_dictOfIngredients, hlast]
    rfl

/-- Claim C10, witness: `dupGin` lists `gin` twice (`1 oz` then `2 oz`)
and its report column shows `2 oz`. -/
theorem report_shows_last_occurrence_witness :
    display_cocktail_difference (build_graph [dupGin]) ["Dup"]
        = Except.ok (makeReport ["Dup"] [dupGin]) ∧
    ingredientRow ([dupGin].map (fun c0 => dictOfIngredients c0.ingredients)) "gin"
        ∈ (makeReport ["Dup"] [dupGin]).table ∧
    (ingredientRow ([dupGin].map (fun c0 => dictOfIngredients c0.ingredients)) "gin")[0 + 1]?
        = some "2 oz" :=
  report_shows_last_occurrence (build_graph [dupGin]) ["Dup"] [dupGin] 0 dupGin
    "gin" "2 oz" (by decide) (by decide) (by decide)

/-! ## Claim C9: ranking lemmas -/

/-- The candidate ranking order is total. -/
theorem pairGe_total (p q : ℚ × String) : pairGe p q = true ∨ pairGe q p = true := by
  simp only [pairGe, Bool.or_eq_true, Bool.and_eq_true, decide_eq_true_eq]
  rcases lt_trichotomy p.1 q.1 with h | h | h
  · exact Or.inr (Or.inl h)
  · rcases le_total q.2 p.2 with hs | hs
    · exact Or.inl (Or.inr ⟨h, hs⟩)
    · exact Or.inr (Or.inr ⟨h.symm, hs⟩)
  · exact Or.inl (Or.inl h)

/-- The candidate ranking order is transitive. -/
theorem pairGe_trans (p q r : ℚ × String)
    (h1 : pairGe p q = true) (h2 : pairGe q r = true) : pairGe p r = true := by
  simp only [pairGe, Bool.or_eq_true, Bool.and_eq_true, decide_eq_true_eq] at h1 h2 ⊢
  rcases h1 with h1 | ⟨h1e, h1s⟩
  · rcases h2 with h2 | ⟨h2e, h2s⟩
    · exact Or.inl (lt_trans h2 h1)
    · exact Or.inl (h2e ▸ h1)
  · rcases h2 with h2 | ⟨h2e, h2s⟩
    · exact Or.inl (h1e ▸ h2)
    · exact Or.inr ⟨h1e.trans h2e, le_trans h2s h1s⟩

/-- Membership in a descending insertion. -/
theorem mem_insertDesc (x p : ℚ × String) (l : List (ℚ × String)) :
    x ∈ insertDesc p l ↔ x = p ∨ x ∈ l := by
  induction l with
  | nil => simp [insertDesc]
  | cons q rest ih =>
    rw [insertDesc]
    by_cases h : pairGe p q = true
    · rw [if_pos h]
      simp
    · rw [if_neg h, List.mem_cons, ih, List.mem_cons]
      tauto

/-- The descending sort preserves membership. -/
theorem mem_sortDesc (x : ℚ × String) (l : List (ℚ × String)) :
    x ∈ sortDesc l ↔ x ∈ l := by
  induction l with
  | nil => simp [sortDesc]
  | cons p rest ih =>
    rw [sortDesc, mem_insertDesc, ih, List.mem_cons]

/-- Descending insertion into a descending-sorted list stays sorted. -/
theorem pairwise_insertDesc (p : ℚ × String) (l : List (ℚ × String))
    (h : l.Pairwise (fun a b => pairGe a b = true)) :
    (insertDesc p l).Pairwise (fun a b => pairGe a b = true) := by
  induction l with
  | nil => simp [insertDesc]
  | cons q rest ih =>
    rw [insertDesc]
    rcases List.pairwise_cons.mp h with ⟨hq, hrest⟩
    by_cases hpq : pairGe p q = true
    · rw [if_pos hpq]
      refine List.pairwise_cons.mpr ⟨?_, h⟩
      intro x hx
      rcases List.mem_cons.mp hx with rfl | hx
      · exact hpq
      · exact pairGe_trans p q x hpq (hq x hx)
    · rw [if_neg hpq]
      refine List.pairwise_cons.mpr ⟨?_, ih hrest⟩
      intro x hx
      rcases (mem_insertDesc x p rest).mp hx with rfl | hx
      · rcases pairGe_total x q with hc | hc
        · exact absurd hc hpq
        · exact hc
      · exact hq x hx

/-- The descending sort is sorted. -/
theorem pairwise_sortDesc (l : List (ℚ × String)) :
    (sortDesc l).Pairwise (fun a b => pairGe a b = true) := by
  induction l with
  | nil => simp [sortDesc]
  | cons p rest ih => exact pairwise_insertDesc p (sortDesc rest) ih

/-- A descending insertion is never empty. -/
theorem insertDesc_ne_nil (p : ℚ × String) (l : List (ℚ × String)) :
    ¬ insertDesc p l = [] := by
  cases l with
  | nil => simp [insertDesc]
  | cons q rest =>
    rw [insertDesc]
    by_cases h : pairGe p q = true
    · rw [if_pos h]; simp
    · rw [if_neg h]; simp

/-- The descending sort is empty only on the empty list. -/
theorem sortDesc_eq_nil_iff (l : List (ℚ × String)) : sortDesc l = [] ↔ l = [] := by
  cases l with
  | nil => simp [sortDesc]
  | cons p rest =>
    rw [sortDesc]
    simp [insertDesc_ne_nil]

/-- Claim C9: fuzzy search returns only node names whose similarity
ratio to the query reaches the cutoff `0.6 = 3/5`, ranked in descending
order of ratio, truncated to at most 5 results; it returns the empty
list (rather than failing) exactly when no node name clears the cutoff.
The `difflib` `SequenceMatcher` ratio is kept abstract; every part holds
for an arbitrary ratio function. -/
theorem fuzzy_search_spec (ratio : String → String → ℚ) (g : NxGraph) (q : String) :
    (∀ y ∈ fuzzy_search_cocktail ratio g q,
        y ∈ g.nodes.map Prod.fst ∧ 3 / 5 ≤ ratio y q) ∧
    (fuzzy_search_cocktail ratio g q).length ≤ 5 ∧
    List.Pairwise (fun a b => ratio b q ≤ ratio a q) (fuzzy_search_cocktail ratio g q) ∧
    (fuzzy_search_cocktail ratio g q = [] ↔
        ∀ y ∈ g.nodes.map Prod.fst, ratio y q < 3 / 5) := by
  have hmem : ∀ p ∈ sortDesc ((((g.nodes.map Prod.fst).filter
          (fun x => decide ((3 : ℚ) / 5 ≤ ratio x q))).map (fun x => (ratio x q, x)))),
      p.2 ∈ g.nodes.map Prod.fst ∧ 3 / 5 ≤ ratio p.2 q ∧ p.1 = ratio p.2 q := by
    intro p hp
    rw [mem_sortDesc] at hp
    obtain ⟨x, hx, hpx⟩ := List.mem_map.mp hp
    rw [List.mem_filter] at hx
    subst hpx
    exact ⟨hx.1, of_decide_eq_true hx.2, rfl⟩
  refine ⟨?_, ?_, ?_, ?_⟩
  · intro y hy
    rw [fuzzy_search_cocktail, get_close_matches] at hy
    obtain ⟨p, hp, hpy⟩ := List.mem_map.mp hy
    obtain ⟨h1, h2, _⟩ := hmem p (List.mem_of_mem_take hp)
    rw [← hpy]
    exact ⟨h1, h2⟩
  · rw [fuzzy_search_cocktail, get_close_matches, List.length_map]
    exact List.length_take_le 5 _
  · rw [fuzzy_search_cocktail, get_close_matches]
    rw [List.pairwise_map]
    have hsorted := (pairwise_sortDesc ((((g.nodes.map Prod.fst).filter
        (fun x => decide ((3 : ℚ) / 5 ≤ ratio x q))).map
        (fun x => (ratio x q, x))))).sublist (List.take_sublist 5 _)
    refine List.Pairwise.imp_of_mem ?_ hsorted
    intro a b ha hb hab
    obtain ⟨_, _, ha3⟩ := hmem a (List.mem_of_mem_take ha)
    obtain ⟨_, _, hb3⟩ := hmem b (List.mem_of_mem_take hb)
    rw [← ha3, ← hb3]
    simp only [pairGe, Bool.or_eq_true, Bool.and_eq_true, decide_eq_true_eq] at hab
    rcases hab with h | ⟨he, _⟩
    · exact le_of_lt h
    · exact le_of_eq he.symm
  · rw [fuzzy_search_cocktail, get_close_matches]
    rw [List.map_eq_nil_iff, List.take_eq_nil_iff, sortDesc_eq_nil_iff,
      List.map_eq_nil_iff, List.filter_eq_nil_iff]
    constructor
    · rintro (h | h)
      · cases h
      · intro y hy
        have := h y hy
        rw [decide_eq_true_eq] at this
        exact lt_of_not_le this
    · intro h
      refine Or.inr ?_
      intro y hy
      rw [decide_eq_true_eq]
      exact not_le_of_lt (h y hy)

/-- Claim C9, witness: on the empty graph nothing clears the cutoff and
the search returns the empty list. -/
theorem fuzzy_search_spec_witness :
    fuzzy_search_cocktail (fun _ _ => 0) (build_graph []) "Margarita" = [] :=
  (fuzzy_search_spec (fun _ _ => 0) (build_graph []) "Margarita").2.2.2.mpr (by decide)

/-! ## Claims C2 and C8: edge lemmas -/

/-- The predicate `sameEdge` unfolded to a proposition. -/
theorem sameEdge_iff (u v a b : String) :
    sameEdge u v a b = true ↔ (u = a ∧ v = b) ∨ (u = b ∧ v = a) := by
  simp [sameEdge]

/-- Two pairs matching the same unordered pair match each other's. -/
theorem sameEdge_trans (x y u v a b : String)
    (h1 : sameEdge x y a b = true) (h2 : sameEdge u v a b = true) :
    sameEdge x y u v = true := by
  rw [sameEdge_iff] at h1 h2 ⊢
  rcases h1 with ⟨hx, hy⟩ | ⟨hx, hy⟩ <;> rcases h2 with ⟨hu, hv⟩ | ⟨hu, hv⟩
  · exact Or.inl ⟨hx.trans hu.symm, hy.trans hv.symm⟩
  · exact Or.inr ⟨hx.trans hv.symm, hy.trans hu.symm⟩
  · exact Or.inr ⟨hx.trans hv.symm, hy.trans hu.symm⟩
  · exact Or.inl ⟨hx.trans hu.symm, hy.trans hv.symm⟩

/-- Matching an unordered pair is symmetric in the two pairs. -/
theorem sameEdge_symm (u v a b : String) : sameEdge u v a b = sameEdge a b u v := by
  rw [Bool.eq_iff_iff, sameEdge_iff, sameEdge_iff]
  constructor
  · rintro (⟨h1, h2⟩ | ⟨h1, h2⟩)
    · exact Or.inl ⟨h1.symm, h2.symm⟩
    · exact Or.inr ⟨h2.symm, h1.symm⟩
  · rintro (⟨h1, h2⟩ | ⟨h1, h2⟩)
    · exact Or.inl ⟨h1.symm, h2.symm⟩
    · exact Or.inr ⟨h2.symm, h1.symm⟩

/-- With `a ≠ b`, a pair headed by `a` matches `{a, b}` exactly when its
second endpoint is `b`. -/
theorem sameEdge_left (a b n : String) (hab : ¬ a = b) :
    sameEdge a n a b = (n == b) := by
  rw [sameEdge, beq_self_eq_true, Bool.true_and, beq_false_of_ne hab, Bool.false_and,
    Bool.or_false]

/-- With `a ≠ b`, a pair headed by `b` matches `{a, b}` exactly when its
second endpoint is `a`. -/
theorem sameEdge_right (a b n : String) (hab : ¬ a = b) :
    sameEdge b n a b = (n == a) := by
  rw [sameEdge, beq_false_of_ne (Ne.symm hab), Bool.false_and, beq_self_eq_true,
    Bool.true_and, Bool.false_or]

/-- A pair headed by neither endpoint never matches `{a, b}`. -/
theorem sameEdge_none (u n a b : String) (hu1 : ¬ u = a) (hu2 : ¬ u = b) :
    sameEdge u n a b = false := by
  rw [sameEdge, beq_false_of_ne hu1, Bool.false_and, beq_false_of_ne hu2, Bool.false_and,
    Bool.or_self]

/-- Searching a filtered list for something the filter keeps. -/
theorem find?_filter_of_imp {α : Type} (p q : α → Bool) (l : List α)
    (h : ∀ x, p x = true → q x = true) :
    (l.filter q).find? p = l.find? p := by
  induction l with
  | nil => rfl
  | cons x rest ih =>
    rw [List.filter_cons]
    by_cases hq : q x = true
    · rw [if_pos hq, List.find?_cons, List.find?_cons]
      cases hp : p x with
      | true => rfl
      | false => exact ih
    · rw [if_neg hq, List.find?_cons]
      cases hp : p x with
      | true => exact absurd (h x hp) hq
      | false => exact ih

/-- Effect of `add_edge` on a weight lookup: the touched unordered pair
gets the new weight, all other pairs are untouched. -/
theorem getEdgeWeight_addEdge (g : NxGraph) (u v a b : String) (w : ℚ) :
    (g.addEdge u v w).getEdgeWeight a b
      = if sameEdge u v a b = true then some w else g.getEdgeWeight a b := by
  rw [NxGraph.getEdgeWeight, NxGraph.addEdge]
  simp only [List.find?_append]
  by_cases h : sameEdge u v a b = true
  · rw [if_pos h]
    have h1 : (g.edges.filter (fun e => ¬ sameEdge e.1 e.2.1 u v)).find?
        (fun e => sameEdge e.1 e.2.1 a b) = none := by
      rw [List.find?_eq_none]
      intro e he hsame
      rw [List.mem_filter] at he
      exact absurd (sameEdge_trans e.1 e.2.1 u v a b hsame h) (of_decide_eq_true he.2)
    rw [h1, Option.none_or]
    simp [List.find?, h]
  · rw [if_neg h]
    have h2 : ([(u, v, w)].find? (fun e => sameEdge e.1 e.2.1 a b)) = none := by
      cases hb : sameEdge u v a b with
      | true => exact absurd hb h
      | false => simp [List.find?, hb]
    rw [h2, Option.or_none, NxGraph.getEdgeWeight,
      find?_filter_of_imp _ _ g.edges (fun e hp => by
        rw [decide_eq_true_eq]
        intro hc
        have hc' : sameEdge u v e.1 e.2.1 = true := sameEdge_symm e.1 e.2.1 u v ▸ hc
        have hp' : sameEdge a b e.1 e.2.1 = true := sameEdge_symm e.1 e.2.1 a b ▸ hp
        exact h (sameEdge_trans u v a b e.1 e.2.1 hc' hp'))]

/-- Effect of one inner-loop iteration of `build_graph` on a weight
lookup. -/
theorem getEdgeWeight_maybeAddEdge (c1 c2 : Cocktail) (g : NxGraph) (a b : String) :
    (maybeAddEdge c1 c2 g).getEdgeWeight a b
      = if sameEdge c1.name c2.name a b = true ∧ threshold ≤ get_similarity c1 c2 then
          some (1 / (get_similarity c1 c2 : ℚ))
        else g.getEdgeWeight a b := by
  rw [maybeAddEdge]
  by_cases hs : threshold ≤ get_similarity c1 c2
  · rw [if_pos hs, getEdgeWeight_addEdge]
    by_cases hsame : sameEdge c1.name c2.name a b = true
    · rw [if_pos hsame, if_pos ⟨hsame, hs⟩]
    · rw [if_neg hsame, if_neg (fun hc => hsame hc.1)]
  · rw [if_neg hs, if_neg (fun hc => hs hc.2)]

/-- The inner loop leaves a weight lookup untouched when the head
cocktail forms the looked-up pair with none of the others. -/
theorem foldl_maybeAddEdge_untouched (c : Cocktail) (a b : String) :
    ∀ (rest : List Cocktail) (g : NxGraph),
      (∀ c2 ∈ rest, sameEdge c.name c2.name a b = false) →
      (rest.foldl (fun h0 c2 => maybeAddEdge c c2 h0) g).getEdgeWeight a b
        = g.getEdgeWeight a b := by
  intro rest
  induction rest with
  | nil => intro g _; rfl
  | cons d rest ih =>
    intro g h
    rw [List.foldl_cons, ih _ (fun c2 hc2 => h c2 (List.mem_cons_of_mem d hc2)),
      getEdgeWeight_maybeAddEdge,
      if_neg (fun hc => by
        rw [h d (List.mem_cons_self d rest)] at hc
        exact Bool.false_ne_true hc.1)]

/-- The inner loop on a list containing exactly one partner for the
looked-up pair: the looked-up weight becomes the thresholded weight of
that pair. -/
theorem foldl_maybeAddEdge_single (c c2 : Cocktail) (a b : String) :
    ∀ (rest : List Cocktail) (g : NxGraph),
      rest.filter (fun d => sameEdge c.name d.name a b) = [c2] →
      (rest.foldl (fun h0 d => maybeAddEdge c d h0) g).getEdgeWeight a b
        = if threshold ≤ get_similarity c c2 then some (1 / (get_similarity c c2 : ℚ))
          else g.getEdgeWeight a b := by
  intro rest
  induction rest with
  | nil => intro g hfil; simp at hfil
  | cons d rest ih =>
    intro g hfil
    rw [List.filter_cons] at hfil
    by_cases hd : sameEdge c.name d.name a b = true
    · rw [if_pos hd] at hfil
      have hd2 : d = c2 := (List.cons_eq_cons.mp hfil).1
      have hrest : rest.filter (fun d0 => sameEdge c.name d0.name a b) = [] :=
        (List.cons_eq_cons.mp hfil).2
      rw [List.foldl_cons]
      rw [foldl_maybeAddEdge_untouched c a b rest _ (fun x hx => by
        cases hfx : sameEdge c.name x.name a b with
        | false => rfl
        | true =>
          have : x ∈ rest.filter (fun d0 => sameEdge c.name d0.name a b) :=
            List.mem_filter.mpr ⟨hx, hfx⟩
          rw [hrest] at this
          cases this)]
      rw [getEdgeWeight_maybeAddEdge, hd2]
      by_cases hs : threshold ≤ get_similarity c c2
      · rw [if_pos ⟨hd2 ▸ hd, hs⟩, if_pos hs]
      · rw [if_neg hs,
          if_neg (fun hc : sameEdge c.name c2.name a b = true ∧
            threshold ≤ get_similarity c c2 => hs hc.2)]
    · rw [if_neg hd] at hfil
      rw [List.foldl_cons, ih (maybeAddEdge c d g) hfil, getEdgeWeight_maybeAddEdge,
        if_neg (fun hc : sameEdge c.name d.name a b = true ∧
          threshold ≤ get_similarity c d => hd hc.1)]



/-- No element named `a` means no pair is found. -/
theorem findPair_eq_none (cs : List Cocktail) (a b : String)
    (h : ∀ d ∈ cs, ¬ d.name = a) : findPair cs a b = none := by
  induction cs with
  | nil => rfl
  | cons c rest ih =>
    rw [findPair, if_neg (h c (List.mem_cons_self c rest))]
    by_cases hb : c.name = b
    · rw [if_pos hb]
      have hf : rest.find? (fun d => d.name == a) = none := by
        rw [List.find?_eq_none]
        intro d hd hda
        exact h d (List.mem_cons_of_mem c hd) (by simpa using hda)
      rw [hf]
      rfl
    · rw [if_neg hb]
      exact ih (fun d hd => h d (List.mem_cons_of_mem c hd))

/-- No element named `b` means no pair is found either. -/
theorem findPair_eq_none_right (cs : List Cocktail) (a b : String)
    (h : ∀ d ∈ cs, ¬ d.name = b) : findPair cs a b = none := by
  induction cs with
  | nil => rfl
  | cons c rest ih =>
    rw [findPair]
    by_cases ha : c.name = a
    · rw [if_pos ha]
      have hf : rest.find? (fun d => d.name == b) = none := by
        rw [List.find?_eq_none]
        intro d hd hdb
        exact h d (List.mem_cons_of_mem c hd) (by simpa using hdb)
      rw [hf]
      rfl
    · rw [if_neg ha, if_neg (h c (List.mem_cons_self c rest))]
      exact ih (fun d hd => h d (List.mem_cons_of_mem c hd))

/-- What a found pair looks like: both components are input entities and
their names are `{a, b}`, the first-occurring one first. -/
theorem findPair_some_mem (cs : List Cocktail) (a b : String) (c1 c2 : Cocktail)
    (h : findPair cs a b = some (c1, c2)) :
    c1 ∈ cs ∧ c2 ∈ cs ∧ ((c1.name = a ∧ c2.name = b) ∨ (c1.name = b ∧ c2.name = a)) := by
  induction cs with
  | nil => simp [findPair] at h
  | cons c rest ih =>
    rw [findPair] at h
    by_cases ha : c.name = a
    · rw [if_pos ha] at h
      cases hf : rest.find? (fun d => d.name == b) with
      | some d =>
        rw [hf] at h
        simp only [Option.map_some'] at h
        have hcd : c = c1 ∧ d = c2 := by
          have := h
          injection this with hpair
          exact ⟨congrArg Prod.fst hpair, congrArg Prod.snd hpair⟩
        obtain ⟨hc1, hc2⟩ := hcd
        refine ⟨hc1 ▸ List.mem_cons_self c rest, ?_, ?_⟩
        · exact List.mem_cons_of_mem c (hc2 ▸ List.mem_of_find?_eq_some hf)
        · refine Or.inl ⟨hc1 ▸ ha, ?_⟩
          have := List.find?_some hf
          rw [hc2] at this
          simpa using this
      | none => rw [hf] at h; simp at h
    · rw [if_neg ha] at h
      by_cases hb : c.name = b
      · rw [if_pos hb] at h
        cases hf : rest.find? (fun d => d.name == a) with
        | some d =>
          rw [hf] at h
          simp only [Option.map_some'] at h
          have hcd : c = c1 ∧ d = c2 := by
            injection h with hpair
            exact ⟨congrArg Prod.fst hpair, congrArg Prod.snd hpair⟩
          obtain ⟨hc1, hc2⟩ := hcd
          refine ⟨hc1 ▸ List.mem_cons_self c rest, ?_, ?_⟩
          · exact List.mem_cons_of_mem c (hc2 ▸ List.mem_of_find?_eq_some hf)
          · refine Or.inr ⟨hc1 ▸ hb, ?_⟩
            have := List.find?_some hf
            rw [hc2] at this
            simpa using this
        | none => rw [hf] at h; simp at h
      · rw [if_neg hb] at h
        obtain ⟨h1, h2, h3⟩ := ih h
        exact ⟨List.mem_cons_of_mem c h1, List.mem_cons_of_mem c h2, h3⟩

/-- When two input entities carry the names `a` and `b`, the double loop
does visit a pair for `{a, b}`. -/
theorem findPair_isSome (cs : List Cocktail) (a b : String) (c1 c2 : Cocktail)
    (hab : ¬ a = b) (h1 : c1 ∈ cs) (h2 : c2 ∈ cs)
    (hn1 : c1.name = a) (hn2 : c2.name = b) :
    (findPair cs a b).isSome = true := by
  induction cs with
  | nil => simp at h1
  | cons c rest ih =>
    rw [findPair]
    by_cases ha : c.name = a
    · rw [if_pos ha, Option.isSome_map']
      have hc2 : c2 ∈ rest := by
        rcases List.mem_cons.mp h2 with rfl | h
        · exact absurd (ha.symm.trans hn2) hab
        · exact h
      rw [List.find?_isSome]
      exact ⟨c2, hc2, by simp [hn2]⟩
    · rw [if_neg ha]
      by_cases hb : c.name = b
      · rw [if_pos hb, Option.isSome_map']
        have hc1 : c1 ∈ rest := by
          rcases List.mem_cons.mp h1 with rfl | h
          · exact absurd hn1 ha
          · exact h
        rw [List.find?_isSome]
        exact ⟨c1, hc1, by simp [hn1]⟩
      · rw [if_neg hb]
        have hc1 : c1 ∈ rest := by
          rcases List.mem_cons.mp h1 with rfl | h
          · exact absurd hn1 ha
          · exact h
        have hc2 : c2 ∈ rest := by
          rcases List.mem_cons.mp h2 with rfl | h
          · exact absurd hn2 hb
          · exact h
        exact ih hc1 hc2

/-- With pairwise-distinct names, an element is determined by its
name. -/
theorem name_unique (cs : List Cocktail) (hnd : (cs.map Cocktail.name).Nodup)
    (x y : Cocktail) (hx : x ∈ cs) (hy : y ∈ cs) (hxy : x.name = y.name) : x = y := by
  induction cs with
  | nil => simp at hx
  | cons c rest ih =>
    rw [List.map_cons, List.nodup_cons] at hnd
    rcases List.mem_cons.mp hx with rfl | hx' <;> rcases List.mem_cons.mp hy with rfl | hy'
    · rfl
    · exact absurd (hxy ▸ List.mem_map_of_mem Cocktail.name hy') hnd.1
    · exact absurd (hxy ▸ List.mem_map_of_mem Cocktail.name hx') hnd.1
    · exact ih hnd.2 hx' hy'

/-- With nodup names a successful name search pins down the whole
filter. -/
theorem filter_eq_singleton_of_find? (b : String) :
    ∀ (rest : List Cocktail), (rest.map Cocktail.name).Nodup →
      ∀ c2, rest.find? (fun d => d.name == b) = some c2 →
        rest.filter (fun d => d.name == b) = [c2] := by
  intro rest
  induction rest with
  | nil => intro _ c2 hf; simp at hf
  | cons d rest ih =>
    intro hnd c2 hf
    rw [List.map_cons, List.nodup_cons] at hnd
    rw [List.find?_cons] at hf
    rw [List.filter_cons]
    cases hd : (d.name == b) with
    | true =>
      rw [hd] at hf
      have hdc : d = c2 := by injection hf
      rw [if_pos rfl, hdc]
      have hnil : rest.filter (fun d0 => d0.name == b) = [] := by
        rw [List.filter_eq_nil_iff]
        intro x hx hxb
        apply hnd.1
        have hxb' : x.name = b := by simpa using hxb
        have hdb : d.name = b := by simpa using hd
        rw [hdb, ← hxb']
        exact List.mem_map_of_mem Cocktail.name hx
      rw [hnil]
    | false =>
      rw [hd] at hf
      rw [if_neg (fun h => Bool.false_ne_true h)]
      exact ih hnd.2 c2 hf

/-- The weight the double loop of `build_graph` leaves on the unordered
pair `{a, b}`: with pairwise-distinct names, exactly the pair found by
`findPair` decides it. -/
theorem addAllPairs_weight (a b : String) (hab : ¬ a = b) :
    ∀ (cs : List Cocktail) (g : NxGraph), (cs.map Cocktail.name).Nodup →
      (addAllPairs g cs).getEdgeWeight a b
        = match findPair cs a b with
          | some (c1, c2) =>
              if threshold ≤ get_similarity c1 c2 then
                some (1 / (get_similarity c1 c2 : ℚ))
              else g.getEdgeWeight a b
          | none => g.getEdgeWeight a b := by
  intro cs
  induction cs with
  | nil => intro g _; rfl
  | cons c rest ih =>
    intro g hnd
    rw [List.map_cons, List.nodup_cons] at hnd
    obtain ⟨hcn, hndrest⟩ := hnd
    rw [addAllPairs, ih _ hndrest, findPair]
    by_cases ha : c.name = a
    · rw [if_pos ha]
      have hnone : findPair rest a b = none := findPair_eq_none rest a b (by
        intro d hd hda
        exact hcn (by rw [ha, ← hda]; exact List.mem_map_of_mem Cocktail.name hd))
      rw [hnone]
      cases hf : rest.find? (fun d => d.name == b) with
      | some c2 =>
        have hfil : rest.filter (fun d => sameEdge c.name d.name a b) = [c2] := by
          rw [List.filter_congr (fun d _ => by rw [ha, sameEdge_left a b d.name hab])]
          exact filter_eq_singleton_of_find? b rest hndrest c2 hf
        rw [foldl_maybeAddEdge_single c c2 a b rest g hfil]
        rfl
      | none =>
        rw [foldl_maybeAddEdge_untouched c a b rest g (by
          intro x hx
          rw [ha, sameEdge_left a b x.name hab]
          rw [List.find?_eq_none] at hf
          have := hf x hx
          simpa using this)]
        rfl
    · rw [if_neg ha]
      by_cases hb : c.name = b
      · rw [if_pos hb]
        have hnone : findPair rest a b = none := findPair_eq_none_right rest a b (by
          intro d hd hdb
          exact hcn (by rw [hb, ← hdb]; exact List.mem_map_of_mem Cocktail.name hd))
        rw [hnone]
        cases hf : rest.find? (fun d => d.name == a) with
        | some c2 =>
          have hfil : rest.filter (fun d => sameEdge c.name d.name a b) = [c2] := by
            rw [List.filter_congr (fun d _ => by rw [hb, sameEdge_right a b d.name hab])]
            exact filter_eq_singleton_of_find? a rest hndrest c2 hf
          rw [foldl_maybeAddEdge_single c c2 a b rest g hfil]
          rfl
        | none =>
          rw [foldl_maybeAddEdge_untouched c a b rest g (by
            intro x hx
            rw [hb, sameEdge_right a b x.name hab]
            rw [List.find?_eq_none] at hf
            have := hf x hx
            simpa using this)]
          rfl
      · rw [if_neg hb]
        have huntouched := foldl_maybeAddEdge_untouched c a b rest g
          (fun x _ => sameEdge_none c.name x.name a b ha hb)
        cases hfp : findPair rest a b with
        | none => rw [huntouched]
        | some pr =>
          obtain ⟨c1, c2⟩ := pr
          rw [huntouched]

/-- Adding nodes never touches the edge list. -/
theorem foldl_addNode_edges (cs : List Cocktail) (g : NxGraph) :
    (cs.foldl (fun h c => h.addNode c.name c) g).edges = g.edges := by
  induction cs generalizing g with
  | nil => rfl
  | cons c rest ih =>
    rw [List.foldl_cons, ih]
    rw [NxGraph.addNode]
    by_cases h : g.hasNode c.name = true
    · rw [if_pos h]
    · rw [if_neg h]

/-- The node-building phase of `build_graph` has no edges. -/
theorem build_nodes_getEdgeWeight (cs : List Cocktail) (a b : String) :
    (cs.foldl (fun g c => g.addNode c.name c) NxGraph.empty).getEdgeWeight a b = none := by
  rw [NxGraph.getEdgeWeight, foldl_addNode_edges]
  rfl

/-- Claim C2 (amended): for every entity list with pairwise-distinct
names, the built graph has an edge between the names of two distinct
entities exactly when their similarity score reaches the threshold 7,
and that edge's weight is exactly `1/score`; each unordered pair is
visited once (`i < j` over input order) by construction of
`addAllPairs`.  The original claim fails when two entities share a
name. -/
theorem build_graph_edge_iff_threshold (cs : List Cocktail)
    (hnd : (cs.map Cocktail.name).Nodup) (c1 c2 : Cocktail)
    (h1 : c1 ∈ cs) (h2 : c2 ∈ cs) (hne : ¬ c1.name = c2.name) :
    (build_graph cs).getEdgeWeight c1.name c2.name
      = if threshold ≤ get_similarity c1 c2
        then some (1 / (get_similarity c1 c2 : ℚ))
        else none := by
  rw [build_graph, addAllPairs_weight c1.name c2.name hne cs _ hnd]
  cases hfp : findPair cs c1.name c2.name with
  | none =>
    have hsome := findPair_isSome cs c1.name c2.name c1 c2 hne h1 h2 rfl rfl
    rw [hfp] at hsome
    simp at hsome
  | some pr =>
    obtain ⟨d1, d2⟩ := pr
    obtain ⟨hm1, hm2, hcase⟩ := findPair_some_mem cs c1.name c2.name d1 d2 hfp
    rw [build_nodes_getEdgeWeight]
    rcases hcase with ⟨hda, hdb⟩ | ⟨hda, hdb⟩
    · have e1 : d1 = c1 := name_unique cs hnd d1 c1 hm1 h1 hda
      have e2 : d2 = c2 := name_unique cs hnd d2 c2 hm2 h2 hdb
      rw [e1, e2]
    · have e1 : d1 = c2 := name_unique cs hnd d1 c2 hm1 h2 hda
      have e2 : d2 = c1 := name_unique cs hnd d2 c1 hm2 h1 hdb
      rw [e1, e2]
      dsimp only
      rw [get_similarity_comm c2 c1]



/-- Claim C2, counterexample to the original statement: with a repeated
name in the input, the distinct entities `nameX2` and `nameY` score 0,
yet the built graph has an edge between their (distinct) names — the
edge contributed by the pair `(nameX1, nameY)`. -/
theorem build_graph_edge_iff_counterexample :
    (build_graph [nameX1, nameY, nameX2]).hasEdge nameX2.name nameY.name = true ∧
    get_similarity nameX2 nameY < threshold ∧
    ¬ nameX2.name = nameY.name := by decide

/-- Claim C2, witness of the amended statement on a two-entity list with
distinct names. -/
theorem build_graph_edge_iff_threshold_witness :
    (build_graph [soloA, soloB]).getEdgeWeight soloA.name soloB.name
      = if threshold ≤ get_similarity soloA soloB
        then some (1 / (get_similarity soloA soloB : ℚ))
        else none :=
  build_graph_edge_iff_threshold [soloA, soloB] (by decide) soloA soloB
    (by decide) (by decide) (by decide)

/-! ## Claim C8 -/



/-- Every edge of `add_edge g u v w` is an old edge or the new one. -/
theorem mem_addEdge (g : NxGraph) (u v : String) (w : ℚ)
    (e : String × String × ℚ) (he : e ∈ (g.addEdge u v w).edges) :
    e ∈ g.edges ∨ e = (u, v, w) := by
  rw [NxGraph.addEdge] at he
  rcases List.mem_append.mp he with he | he
  · exact Or.inl (List.mem_filter.mp he).1
  · exact Or.inr (List.mem_singleton.mp he)

/-- Adding an edge with distinct endpoints and positive weight preserves the
simple-graph invariants. -/
theorem simpleEdges_addEdge (g : NxGraph) (u v : String) (w : ℚ)
    (huv : ¬ u = v) (hw : 0 < w) (h : SimpleEdges g) : SimpleEdges (g.addEdge u v w) := by
  obtain ⟨h1, h2, h3⟩ := h
  refine ⟨?_, ?_, ?_⟩
  · intro e he
    rcases mem_addEdge g u v w e he with hm | rfl
    · exact h1 e hm
    · exact huv
  · rw [NxGraph.addEdge]
    apply List.pairwise_append.mpr
    refine ⟨h2.filter _, List.pairwise_singleton _ _, ?_⟩
    intro e he f hf
    rw [List.mem_singleton] at hf
    subst hf
    have := (List.mem_filter.mp he).2
    rw [decide_eq_true_eq] at this
    exact (Bool.not_eq_true _) ▸ this
  · intro e he
    rcases mem_addEdge g u v w e he with hm | rfl
    · exact h3 e hm
    · exact hw

/-- One inner-loop iteration preserves the simple-graph invariants when
the two cocktails have distinct names. -/
theorem simpleEdges_maybeAddEdge (c1 c2 : Cocktail) (g : NxGraph)
    (hne : ¬ c1.name = c2.name) (h : SimpleEdges g) :
    SimpleEdges (maybeAddEdge c1 c2 g) := by
  rw [maybeAddEdge]
  by_cases hs : threshold ≤ get_similarity c1 c2
  · rw [if_pos hs]
    refine simpleEdges_addEdge g _ _ _ hne ?_ h
    have hpos : 0 < get_similarity c1 c2 :=
      lt_of_lt_of_le (by decide) hs
    have hcast : (0 : ℚ) < (get_similarity c1 c2 : ℚ) := by
      exact_mod_cast hpos
    exact one_div_pos.mpr hcast
  · rw [if_neg hs]
    exact h

/-- The inner loop preserves the simple-graph invariants. -/
theorem simpleEdges_foldl (c : Cocktail) :
    ∀ (rest : List Cocktail) (g : NxGraph),
      (∀ d ∈ rest, ¬ c.name = d.name) → SimpleEdges g →
      SimpleEdges (rest.foldl (fun h0 d => maybeAddEdge c d h0) g) := by
  intro rest
  induction rest with
  | nil => intro g _ h; exact h
  | cons d rest ih =>
    intro g hn h
    rw [List.foldl_cons]
    exact ih _ (fun x hx => hn x (List.mem_cons_of_mem d hx))
      (simpleEdges_maybeAddEdge c d g (hn d (List.mem_cons_self d rest)) h)

/-- The double loop preserves the simple-graph invariants when names are
pairwise distinct. -/
theorem simpleEdges_addAllPairs :
    ∀ (cs : List Cocktail) (g : NxGraph), (cs.map Cocktail.name).Nodup →
      SimpleEdges g → SimpleEdges (addAllPairs g cs) := by
  intro cs
  induction cs with
  | nil => intro g _ h; exact h
  | cons c rest ih =>
    intro g hnd h
    rw [List.map_cons, List.nodup_cons] at hnd
    rw [addAllPairs]
    refine ih _ hnd.2 (simpleEdges_foldl c rest g ?_ h)
    intro d hd hcd
    exact hnd.1 (hcd ▸ List.mem_map_of_mem Cocktail.name hd)

/-- Claim C8 (amended): for every input entity list with
pairwise-distinct names, the built graph is simple — no self-loops, no
duplicate edges on the same unordered pair — and every edge weight is
strictly positive (an edge's score is at least the threshold 7, so
`1/score` never divides by zero).  The original claim fails when two
entities share a name. -/
theorem build_graph_simple (cs : List Cocktail) (hnd : (cs.map Cocktail.name).Nodup) :
    (∀ e ∈ (build_graph cs).edges, ¬ e.1 = e.2.1) ∧
    (build_graph cs).edges.Pairwise (fun e f => sameEdge e.1 e.2.1 f.1 f.2.1 = false) ∧
    (∀ e ∈ (build_graph cs).edges, 0 < e.2.2) := by
  have hbase : SimpleEdges (cs.foldl (fun g c => g.addNode c.name c) NxGraph.empty) := by
    refine ⟨?_, ?_, ?_⟩
    · intro e he
      rw [foldl_addNode_edges] at he
      cases he
    · rw [foldl_addNode_edges]
      exact List.Pairwise.nil
    · intro e he
      rw [foldl_addNode_edges] at he
      cases he
  have hmain := simpleEdges_addAllPairs cs _ hnd hbase
  rw [build_graph]
  exact hmain

/-- Claim C8, counterexample to the original statement: two entities
sharing the name `X` and similar enough produce a self-loop on `X`. -/
theorem build_graph_self_loop_counterexample :
    (build_graph [nameX1, nameX1]).edges.any (fun e => e.1 == e.2.1) = true := by decide

/-- Claim C8, witness of the amended statement on a distinct-name
list. -/
theorem build_graph_simple_witness :
    (∀ e ∈ (build_graph [nameX1, nameY]).edges, ¬ e.1 = e.2.1) ∧
    (build_graph [nameX1, nameY]).edges.Pairwise
      (fun e f => sameEdge e.1 e.2.1 f.1 f.2.1 = false) ∧
    (∀ e ∈ (build_graph [nameX1, nameY]).edges, 0 < e.2.2) :=
  build_graph_simple [nameX1, nameY] (by decide)

end CocktailCalc
